import Mathlib

/-!
Verification of the reference-location engine of `internal/patchpkg/search.go`:
file-content search with a memory ceiling, environment-value search, glob
expansion with deduplication, glob metacharacter escaping, and the
removed-reference pattern.

Strings that the Go code treats as opaque tokens (glob patterns, filesystem
paths) are embedded as `String`; strings whose characters the code inspects
(environment entries, escaper input, regex subjects) are embedded as
`List Char`; file contents (Go `[]byte`) are embedded as `List Nat`.
-/

namespace PatchPkg

/-- `maxFileSize` from search.go: the ceiling on how many bytes of a file are
loaded when searching (`1 << 30`). -/
def maxFileSize : Nat := 1 <<< 30

/-! ## Glob deduplication (`searchGlobs`)

`searchGlobs(patterns)` in Go allocates a `seen` map and returns an
`iter.Seq[string]` closure that captures it.  The closure, for each pattern in
order, calls `filepath.Glob(pattern)`, skips patterns whose expansion errors,
and yields each not-yet-seen match, marking it seen before yielding; if the
consumer's `yield` returns false the closure returns immediately.

The embedding makes all of that explicit:
* `glob : String → Option (List String)` models `filepath.Glob` (the
  filesystem is external input; `none` models a pattern-syntax error);
* the consumer is `k : List String → String → Bool`, Go's `yield` allowed to
  decide from the history of paths it has received so far;
* `seen` is the list standing for the captured map (membership = key present);
* one run of the closure returns the yielded paths, the final `seen` state
  (the map persists in the closure between runs), whether the consumer stopped
  the run, and the trace of patterns passed to `filepath.Glob`. -/

structure GlobsRun where
  out : List String
  seen : List String
  stopped : Bool
  trace : List String
  deriving DecidableEq, Repr

/-- The inner `for _, match := range glob` loop of `searchGlobs`: `hist` is the
history of paths already delivered to the consumer, `seen` the captured map.
Returns the paths yielded by this loop, the updated `seen`, and whether
`yield` returned false. -/
def searchMatches (k : List String → String → Bool) :
    List String → List String → List String → List String × List String × Bool
  | _, seen, [] => ([], seen, false)
  | hist, seen, m :: ms =>
    if m ∈ seen then
      searchMatches k hist seen ms
    else
      if k hist m then
        let r := searchMatches k (hist ++ [m]) (m :: seen) ms
        (m :: r.1, r.2.1, r.2.2)
      else
        ([m], m :: seen, true)

/-- One run of the closure returned by `searchGlobs`, over the remaining
`patterns`, starting from consumer history `hist` and captured state `seen`. -/
def searchGlobsOnce (glob : String → Option (List String))
    (k : List String → String → Bool) :
    List String → List String → List String → GlobsRun
  | _, seen, [] => ⟨[], seen, false, []⟩
  | hist, seen, p :: ps =>
    match glob p with
    | none =>
      let r := searchGlobsOnce glob k hist seen ps
      ⟨r.out, r.seen, r.stopped, p :: r.trace⟩
    | some ms =>
      match searchMatches k hist seen ms with
      | (out, seen2, true) => ⟨out, seen2, true, [p]⟩
      | (out, seen2, false) =>
        let r := searchGlobsOnce glob k (hist ++ out) seen2 ps
        ⟨out ++ r.out, r.seen, r.stopped, p :: r.trace⟩

/-- The consumer that never stops (a complete iteration of the sequence). -/
def alwaysYield : List String → String → Bool := fun _ _ => true

/-- First-occurrence deduplication relative to an initial seen set: keeps the
first occurrence of each element not already in `seen`.  Returns the kept
elements and the final seen set. -/
def dedupFrom : List String → List String → List String × List String
  | seen, [] => ([], seen)
  | seen, x :: xs =>
    if x ∈ seen then
      dedupFrom seen xs
    else
      let r := dedupFrom (x :: seen) xs
      (x :: r.1, r.2)

/-- The multiset of paths produced by expanding every pattern, in order, with
erroring patterns contributing nothing. -/
def globConcat (glob : String → Option (List String)) (patterns : List String) :
    List String :=
  patterns.flatMap fun p => (glob p).getD []

/-! ## Glob escaping (`globEscape`)

Go iterates `for _, r := range s` over runes and appends each rune back with
`utf8.AppendRune`, so the faithful unit is the rune: the embedding works on
`List Char`.  The fast path (`strings.ContainsAny`) tests the ASCII bytes
`*?\[`, which as bytes of valid UTF-8 occur exactly where the runes occur. -/

/-- The glob metacharacters escaped by `globEscape`. -/
def globMeta (c : Char) : Bool :=
  c = '*' || c = '?' || c = '\\' || c = '['

/-- The slow path of `globEscape`: the per-rune loop that prepends a backslash
to each metacharacter. -/
def globEscapeLoop : List Char → List Char
  | [] => []
  | r :: rest =>
    (if globMeta r then ['\\', r] else [r]) ++ globEscapeLoop rest

/-- `globEscape` from search.go: return the input unchanged if it contains no
metacharacter, otherwise run the escaping loop. -/
def globEscape (s : List Char) : List Char :=
  if s.any globMeta then globEscapeLoop s else s

/-! ## File content search (`searchFile`)

`searchFile` opens a file, reads at most `maxFileSize` bytes through an
`io.LimitedReader`, runs `re.FindAllIndex(data, -1)` and materializes one
`fileSlice` per match range `[start, end)` with `data[start:end]` as content.

A compiled regular expression is abstracted as its anchored-match function
`m : List α → Nat → Option Nat`: `m d i` is the end (exclusive) of the match
the pattern makes when required to start at index `i` of `d`, or `none` when
no match starts there.  Go's unanchored `FindAllIndex` scan — repeatedly find
the leftmost match at or after the current position, then resume just past it
(at least one position forward, so an empty match cannot repeat) — becomes an
ascending scan of start positions. -/

/-- The successive non-overlapping match ranges of `m` in `d`, scanning start
positions from `i` upward, as `FindAllIndex` produces them.  The recursion is
driven by explicit fuel so that the function computes by structural
recursion; every step consumes one unit of fuel and advances the position by
at least one, so fuel `d.length + 1 - i` is always enough (see
`findAllGo_fuel_irrelevant`). -/
def findAllGo {α : Type} (m : List α → Nat → Option Nat) (d : List α) :
    Nat → Nat → List (Nat × Nat)
  | _, 0 => []
  | i, fuel + 1 =>
    if i ≤ d.length then
      match m d i with
      | some e => (i, e) :: findAllGo m d (max e (i + 1)) fuel
      | none => findAllGo m d (i + 1) fuel
    else []

/-- `re.FindAllIndex(data, -1)`: all non-overlapping match ranges of `m`. -/
def findAllIndex {α : Type} (m : List α → Nat → Option Nat) (d : List α) :
    List (Nat × Nat) :=
  findAllGo m d 0 (d.length + 1)

/-- Go slicing `l[s:e]` (indices produced by the matcher are within range, so
the clamping of `take`/`drop` is never exercised on Go's side). -/
def goSlice {α : Type} (l : List α) (s e : Nat) : List α :=
  (l.drop s).take (e - s)

/-- `fileSlice` from search.go: a slice of data within a file. -/
structure fileSlice where
  path : String
  data : List Nat
  offset : Nat
  deriving DecidableEq, Repr

/-- The match-materialization half of `searchFile`: one `fileSlice` per range
found in the loaded buffer `d`, content `data[start:end]`, offset `start`. -/
def searchData (m : List Nat → Nat → Option Nat) (path : String)
    (d : List Nat) : List fileSlice :=
  (findAllIndex m d).map fun se => ⟨path, goSlice d se.1 se.2, se.1⟩

/-- A file as `searchFile` consumes it: `io.ReadAll` of its contents either
fails mid-read or delivers the bytes. -/
structure SrcFile where
  readAll : Except String (List Nat)

/-- The `fs.FS` handle: opening a path either fails or yields a file. -/
structure FileSys where
  openFile : String → Except String SrcFile

/-- `searchFile` from search.go: open, read up to `maxFileSize` bytes, find
all matches.  Open and read failures propagate; zero matches is `ok []`. -/
def searchFile (fsys : FileSys) (path : String)
    (m : List Nat → Nat → Option Nat) : Except String (List fileSlice) :=
  match fsys.openFile path with
  | .error err => .error err
  | .ok f =>
    match f.readAll with
    | .error err => .error err
    | .ok content => .ok (searchData m path (content.take maxFileSize))

/-- The same filesystem with every file truncated to its first `maxFileSize`
bytes (used to state the size-ceiling property). -/
def truncFS (fsys : FileSys) : FileSys :=
  ⟨fun path =>
    (fsys.openFile path).map fun f => ⟨f.readAll.map (List.take maxFileSize)⟩⟩

/-! ## Environment search (`searchEnv`)

`envValues` maps each `NAME=VALUE` entry of `os.Environ()` to `VALUE` via
`strings.Cut(entry, "=")` (the part after the first `=`, empty when there is
no `=`).  `searchEnv` scans the values in order and returns the first
non-empty `re.FindString` result, or the empty string.  The process
environment is external input, so it is a parameter; the compiled pattern is
abstracted as its leftmost-match function `find` (`FindString`: the leftmost
matched substring, empty when there is no match). -/

/-- `strings.Cut(s, "=")` keeping only the part after the first `=`. -/
def cutValue (s : List Char) : List Char :=
  (s.dropWhile fun c => c != '=').tail

/-- `envValues`: the environment entries reduced to their values. -/
def envValues (env : List (List Char)) : List (List Char) :=
  env.map cutValue

/-- The scan loop of `searchEnv` over the cached values. -/
def searchEnvLoop (find : List Char → List Char) :
    List (List Char) → List Char
  | [] => []
  | v :: vs =>
    let m := find v
    if m.isEmpty then searchEnvLoop find vs else m

/-- `searchEnv` from search.go, over an explicit environment. -/
def searchEnv (find : List Char → List Char) (env : List (List Char)) :
    List Char :=
  searchEnvLoop find (envValues env)

/-! ## The removed-reference pattern (`reRemovedRefs`)

The Go pattern is the regular expression `e{32}-[^$"'{}/[\] \t\r\n]+`:
thirty-two `e`s, a hyphen, then a maximal nonempty run of characters outside
the class `$ " ' { } / [ ] space tab CR LF`.  Its anchored-match function
(the instance of the abstract matcher used above) is computed directly:
exactly 32 `e`s (a 33rd `e` makes the mandatory hyphen test fail, as in the
regex), the hyphen, then the greedy run. -/

/-- A character the name segment of `reRemovedRefs` may not contain: the
negated class `[^$"'{}/[\] \t\r\n]` of the regex. -/
def forbiddenRefChar (c : Char) : Bool :=
  c = '$' || c = '"' || c = Char.ofNat 39 || c = Char.ofNat 123 ||
  c = Char.ofNat 125 || c = '/' || c = '[' || c = ']' || c = ' ' ||
  c = '\t' || c = '\r' || c = '\n'

/-- The anchored-match function of `reRemovedRefs`: the end of the match the
pattern makes starting at index `i` of `d`, if any: 32 `e`s at positions
`i..i+31`, a hyphen at `i+32`, then the greedy nonempty run of allowed
characters. -/
def reRemovedRefsMatch (d : List Char) (i : Nat) : Option Nat :=
  let rest := d.drop i
  if rest.take 32 = List.replicate 32 'e' then
    if (rest.drop 32).take 1 = ['-'] then
      let n := ((rest.drop 33).takeWhile fun c => !forbiddenRefChar c).length
      if n = 0 then none else some (i + 33 + n)
    else none
  else none

/-- Whether a whole string belongs to the language of `reRemovedRefs` (the
pattern's match anchored at 0 spans the entire string). -/
def reRemovedRefsFull (s : List Char) : Bool :=
  reRemovedRefsMatch s 0 = some s.length

/-- The name-segment alphabet as the specification words it: anything except
path separators, whitespace, quote characters, and brace/bracket characters.
Written from the spec sentence, to be compared with `forbiddenRefChar` taken
from the regex. -/
def specNameChar (c : Char) : Bool :=
  !(c = '/' || c = ' ' || c = '\t' || c = '\r' || c = '\n' || c = '"' ||
    c = Char.ofNat 39 || c = Char.ofNat 123 || c = Char.ofNat 125 ||
    c = '[' || c = ']')

/-- Membership in the language the specification describes for the
removed-reference pattern: 32 sentinel characters, a hyphen, then one or more
characters of the spec's name-segment alphabet. -/
def specRemovedRefsFull (s : List Char) : Bool :=
  s.take 32 = List.replicate 32 'e' &&
  (s.drop 32).take 1 = ['-'] &&
  !(s.drop 33).isEmpty &&
  (s.drop 33).all specNameChar

/-! ## Concrete fixtures used by the witness theorems -/

/-- The leftmost occurrence of a literal string in `s` (a concrete instance
of the abstract `FindString` matcher). -/
def findLiteral (pat : List Char) : List Char → List Char
  | [] => []
  | c :: t => if pat.isPrefixOf (c :: t) then pat else findLiteral pat t

/-- A concrete glob oracle: two overlapping valid patterns and everything
else a syntax error. -/
def globEx : String → Option (List String) :=
  fun p =>
    if p = "a" then some ["x", "y"]
    else if p = "b" then some ["x", "z"]
    else none

/-- A consumer that stops the iteration at the first yielded path. -/
def stopAtOnce : List String → String → Bool := fun _ _ => false

/-- A concrete matcher: matches two consecutive `1` bytes. -/
def matchOnes : List Nat → Nat → Option Nat :=
  fun d i => if (d.drop i).take 2 = [1, 1] then some (i + 2) else none

/-- A one-file filesystem whose file holds the bytes `[1, 1, 0]`. -/
def fsOk : FileSys :=
  ⟨fun p => if p = "f" then .ok ⟨.ok [1, 1, 0]⟩ else .error "no such file"⟩

/-- A filesystem on which every open fails. -/
def fsOpenErr : FileSys := ⟨fun _ => .error "permission denied"⟩

/-- A filesystem whose files fail mid-read. -/
def fsReadErr : FileSys := ⟨fun _ => .ok ⟨.error "input output error"⟩⟩

/-- A concrete environment with one entry, whose name matches `findLiteral
"FOO"` but whose value does not. -/
def envEx : List (List Char) := ["FOO=bar".toList]

/-! ## Lemmas on glob deduplication -/

theorem searchMatches_alwaysYield (hist seen ms : List String) :
    searchMatches alwaysYield hist seen ms =
      ((dedupFrom seen ms).1, (dedupFrom seen ms).2, false) := by
  induction ms generalizing hist seen with
  | nil => rfl
  | cons m ms ih =>
    by_cases hm : m ∈ seen
    · simp [searchMatches, dedupFrom, hm, ih]
    · simp [searchMatches, dedupFrom, hm, alwaysYield, ih]

theorem dedupFrom_append (seen a b : List String) :
    dedupFrom seen (a ++ b) =
      ((dedupFrom seen a).1 ++ (dedupFrom (dedupFrom seen a).2 b).1,
       (dedupFrom (dedupFrom seen a).2 b).2) := by
  induction a generalizing seen with
  | nil => rfl
  | cons x xs ih =>
    by_cases hx : x ∈ seen <;> simp [dedupFrom, hx, ih]

theorem searchGlobsOnce_alwaysYield (glob : String → Option (List String))
    (hist seen pats : List String) :
    searchGlobsOnce glob alwaysYield hist seen pats =
      ⟨(dedupFrom seen (globConcat glob pats)).1,
       (dedupFrom seen (globConcat glob pats)).2, false, pats⟩ := by
  induction pats generalizing hist seen with
  | nil => rfl
  | cons p ps ih =>
    cases hg : glob p with
    | none =>
      simp [searchGlobsOnce, hg, globConcat, List.flatMap_cons, ih]
    | some ms =>
      simp only [searchGlobsOnce, hg, searchMatches_alwaysYield, ih,
        globConcat, List.flatMap_cons, Option.getD_some, dedupFrom_append]

theorem mem_dedupFrom_seen (x : String) (seen l : List String) :
    x ∈ (dedupFrom seen l).2 ↔ x ∈ l ∨ x ∈ seen := by
  induction l generalizing seen with
  | nil => simp [dedupFrom]
  | cons y ys ih =>
    by_cases hy : y ∈ seen
    · simp only [dedupFrom, if_pos hy, ih, List.mem_cons]
      constructor
      · rintro (h | h) <;> tauto
      · rintro ((rfl | h) | h) <;> tauto
    · simp only [dedupFrom, if_neg hy, ih, List.mem_cons]
      tauto

theorem dedupFrom_count (x : String) (seen l : List String) :
    (dedupFrom seen l).1.count x = if x ∈ l ∧ x ∉ seen then 1 else 0 := by
  induction l generalizing seen with
  | nil => simp [dedupFrom]
  | cons y ys ih =>
    by_cases hy : y ∈ seen
    · rw [dedupFrom, if_pos hy, ih]
      by_cases hxy : x = y
      · subst hxy
        simp [hy]
      · simp [List.mem_cons, hxy]
    · rw [dedupFrom, if_neg hy]
      simp only [List.count_cons, ih]
      by_cases hxy : x = y
      · subst hxy
        simp [hy, List.mem_cons]
      · simp only [List.mem_cons, hxy, false_or]
        have hne : (y == x) = false := by
          simp [Ne.symm hxy]
        simp only [hne, if_false, Nat.add_zero]
        by_cases hxl : x ∈ ys
        · simp [hxl, hxy, hy]
        · simp [hxl]

theorem dedupFrom_eq_nil (seen l : List String) (h : ∀ x ∈ l, x ∈ seen) :
    (dedupFrom seen l).1 = [] := by
  induction l generalizing seen with
  | nil => rfl
  | cons y ys ih =>
    have hy : y ∈ seen := h y (by simp)
    rw [dedupFrom, if_pos hy]
    exact ih _ fun x hx => h x (by simp [hx])

theorem searchMatches_stop (k : List String → String → Bool)
    (hist seen ms : List String)
    (h : (searchMatches k hist seen ms).2.2 = true) :
    ∃ x, (searchMatches k hist seen ms).1.getLast? = some x ∧ x ∈ ms := by
  induction ms generalizing hist seen with
  | nil => simp [searchMatches] at h
  | cons m ms ih =>
    by_cases hm : m ∈ seen
    · rw [searchMatches, if_pos hm] at h ⊢
      obtain ⟨x, hx, hmem⟩ := ih _ _ h
      exact ⟨x, hx, List.mem_cons_of_mem _ hmem⟩
    · by_cases hk : k hist m = true
      · rw [searchMatches, if_neg hm, if_pos hk] at h ⊢
        obtain ⟨x, hx, hmem⟩ := ih (hist ++ [m]) (m :: seen) h
        obtain ⟨ys, hys⟩ := List.getLast?_eq_some_iff.1 hx
        refine ⟨x, ?_, List.mem_cons_of_mem _ hmem⟩
        show (m :: (searchMatches k (hist ++ [m]) (m :: seen) ms).1).getLast? = some x
        rw [hys, ← List.cons_append, List.getLast?_concat]
      · rw [searchMatches, if_neg hm, if_neg hk]
        exact ⟨m, rfl, List.mem_cons_self m ms⟩

theorem searchGlobsOnce_stop (glob : String → Option (List String))
    (k : List String → String → Bool) (hist seen pats : List String)
    (h : (searchGlobsOnce glob k hist seen pats).stopped = true) :
    ∃ n p x, (searchGlobsOnce glob k hist seen pats).trace = pats.take (n + 1) ∧
      pats[n]? = some p ∧
      (searchGlobsOnce glob k hist seen pats).out.getLast? = some x ∧
      x ∈ (glob p).getD [] := by
  induction pats generalizing hist seen with
  | nil => simp [searchGlobsOnce] at h
  | cons p ps ih =>
    cases hg : glob p with
    | none =>
      rw [searchGlobsOnce, hg] at h ⊢
      obtain ⟨n, q, x, h1, h2, h3, h4⟩ := ih _ _ h
      exact ⟨n + 1, q, x, by simp [h1], by simpa using h2, h3, h4⟩
    | some ms =>
      rcases hsm : searchMatches k hist seen ms with ⟨out, seen2, st⟩
      cases st with
      | true =>
        have hres : searchGlobsOnce glob k hist seen (p :: ps) =
            ⟨out, seen2, true, [p]⟩ := by
          simp [searchGlobsOnce, hg, hsm]
        rw [hres]
        have hstop : (searchMatches k hist seen ms).2.2 = true := by
          rw [hsm]
        obtain ⟨x, hx, hmem⟩ := searchMatches_stop k hist seen ms hstop
        rw [hsm] at hx
        exact ⟨0, p, x, rfl, by simp, hx, by simpa [hg] using hmem⟩
      | false =>
        have hres : searchGlobsOnce glob k hist seen (p :: ps) =
            ⟨out ++ (searchGlobsOnce glob k (hist ++ out) seen2 ps).out,
             (searchGlobsOnce glob k (hist ++ out) seen2 ps).seen,
             (searchGlobsOnce glob k (hist ++ out) seen2 ps).stopped,
             p :: (searchGlobsOnce glob k (hist ++ out) seen2 ps).trace⟩ := by
          simp [searchGlobsOnce, hg, hsm]
        rw [hres] at h ⊢
        simp only at h ⊢
        obtain ⟨n, q, x, h1, h2, h3, h4⟩ := ih _ _ h
        refine ⟨n + 1, q, x, by simp [h1], by simpa using h2, ?_, h4⟩
        rw [List.getLast?_append, h3]
        rfl

/-- C1: a single (complete) iteration of the sequence returned by
`searchGlobs` yields exactly the first-occurrence deduplication of the
concatenated expansions of the patterns in input order; every path produced
by a syntactically valid pattern appears exactly once, positioned by the
first pattern that produced it; an invalid pattern contributes nothing but
does not stop the iteration (every pattern, valid or not, is still
expanded). -/
theorem searchGlobs_single_iteration (glob : String → Option (List String))
    (pats : List String) :
    (searchGlobsOnce glob alwaysYield [] [] pats).out =
        (dedupFrom [] (globConcat glob pats)).1 ∧
    (∀ x ∈ globConcat glob pats,
        (searchGlobsOnce glob alwaysYield [] [] pats).out.count x = 1) ∧
    (searchGlobsOnce glob alwaysYield [] [] pats).stopped = false ∧
    (searchGlobsOnce glob alwaysYield [] [] pats).trace = pats := by
  rw [searchGlobsOnce_alwaysYield]
  refine ⟨rfl, ?_, rfl, rfl⟩
  intro x hx
  rw [dedupFrom_count]
  simp [hx]

/-- Witness for C1 at a concrete glob oracle: the path "x" produced by both
patterns is yielded exactly once. -/
theorem searchGlobs_single_iteration_witness :
    (searchGlobsOnce globEx alwaysYield [] [] ["a", "b", "c"]).out.count "x" = 1 :=
  (searchGlobs_single_iteration globEx ["a", "b", "c"]).2.1 "x" (by decide)

/-- C2 counterexample: the seen set lives in the closure returned by
`searchGlobs`, outside the iteration body, so a second iteration of the very
same sequence starts from the final seen set of the first and yields nothing,
not the same paths again. -/
theorem searchGlobs_restart_counterexample :
    (searchGlobsOnce globEx alwaysYield [] [] ["a"]).out = ["x", "y"] ∧
    (searchGlobsOnce globEx alwaysYield []
        (searchGlobsOnce globEx alwaysYield [] [] ["a"]).seen ["a"]).out = [] ∧
    (searchGlobsOnce globEx alwaysYield []
        (searchGlobsOnce globEx alwaysYield [] [] ["a"]).seen ["a"]).out ≠
      (searchGlobsOnce globEx alwaysYield [] [] ["a"]).out := by
  decide

/-- C2 amended: the seen set is scoped to the `searchGlobs` call, not to one
iteration; it is shared by all iterations of the returned sequence, so after
a completed first iteration a second iteration of the same sequence yields
the empty sequence. -/
theorem searchGlobs_second_iteration_empty (glob : String → Option (List String))
    (pats : List String) :
    (searchGlobsOnce glob alwaysYield []
        (searchGlobsOnce glob alwaysYield [] [] pats).seen pats).out = [] := by
  rw [searchGlobsOnce_alwaysYield, searchGlobsOnce_alwaysYield]
  simp only
  apply dedupFrom_eq_nil
  intro x hx
  exact (mem_dedupFrom_seen x [] (globConcat glob pats)).2 (Or.inl hx)

/-- C9: when the consumer stops the iteration, the patterns passed to
`filepath.Glob` are exactly the input patterns up to and including the
pattern whose expansion produced the last yielded path; patterns listed after
it are never expanded. -/
theorem searchGlobs_cancellation (glob : String → Option (List String))
    (k : List String → String → Bool) (pats : List String)
    (h : (searchGlobsOnce glob k [] [] pats).stopped = true) :
    ∃ n p x, (searchGlobsOnce glob k [] [] pats).trace = pats.take (n + 1) ∧
      pats[n]? = some p ∧
      (searchGlobsOnce glob k [] [] pats).out.getLast? = some x ∧
      x ∈ (glob p).getD [] :=
  searchGlobsOnce_stop glob k [] [] pats h

/-- Witness for C9: a consumer that stops at the first path; only the first
pattern is ever expanded. -/
theorem searchGlobs_cancellation_witness :
    (searchGlobsOnce globEx stopAtOnce [] [] ["a", "b"]).stopped = true ∧
    (∃ n p x,
      (searchGlobsOnce globEx stopAtOnce [] [] ["a", "b"]).trace =
        (["a", "b"] : List String).take (n + 1) ∧
      (["a", "b"] : List String)[n]? = some p ∧
      (searchGlobsOnce globEx stopAtOnce [] [] ["a", "b"]).out.getLast? = some x ∧
      x ∈ (globEx p).getD []) :=
  ⟨by decide, searchGlobs_cancellation globEx stopAtOnce ["a", "b"] (by decide)⟩

/-! ## Lemmas on the match scan and `searchFile` -/

theorem findAllGo_fuel_irrelevant {α : Type} (m : List α → Nat → Option Nat)
    (d : List α) :
    ∀ fuel₁ fuel₂ i, d.length + 1 - i ≤ fuel₁ → d.length + 1 - i ≤ fuel₂ →
      findAllGo m d i fuel₁ = findAllGo m d i fuel₂ := by
  intro fuel₁
  induction fuel₁ with
  | zero =>
    intro fuel₂ i h1 h2
    have : ¬i ≤ d.length := by omega
    cases fuel₂ with
    | zero => rfl
    | succ f => simp [findAllGo, this]
  | succ f1 ih =>
    intro fuel₂ i h1 h2
    by_cases hi : i ≤ d.length
    · cases fuel₂ with
      | zero => omega
      | succ f2 =>
        rw [findAllGo, findAllGo, if_pos hi, if_pos hi]
        cases hm : m d i with
        | some e =>
          simp only [hm]
          rw [ih f2 (max e (i + 1)) (by omega) (by omega)]
        | none =>
          simp only [hm]
          exact ih f2 (i + 1) (by omega) (by omega)
    · cases fuel₂ with
      | zero => simp [findAllGo, hi]
      | succ f2 => simp [findAllGo, hi]

theorem findAllGo_bounds {α : Type} (m : List α → Nat → Option Nat)
    (d : List α) :
    ∀ fuel i, ∀ se ∈ findAllGo m d i fuel, i ≤ se.1 ∧ se.1 ≤ d.length := by
  intro fuel
  induction fuel with
  | zero => intro i se hse; simp [findAllGo] at hse
  | succ f ih =>
    intro i se hse
    rw [findAllGo] at hse
    by_cases hi : i ≤ d.length
    · rw [if_pos hi] at hse
      cases hm : m d i with
      | some e =>
        rw [hm] at hse
        rcases List.mem_cons.1 hse with h | h
        · subst h; exact ⟨Nat.le_refl _, hi⟩
        · have := ih _ _ h
          constructor
          · calc i ≤ max e (i + 1) := by omega
              _ ≤ se.1 := this.1
          · exact this.2
      | none =>
        rw [hm] at hse
        have := ih _ _ hse
        exact ⟨by omega, this.2⟩
    · rw [if_neg hi] at hse
      simp at hse

theorem findAllGo_pairwise {α : Type} (m : List α → Nat → Option Nat)
    (d : List α) :
    ∀ fuel i, List.Pairwise (fun p q => max p.2 (p.1 + 1) ≤ q.1)
      (findAllGo m d i fuel) := by
  intro fuel
  induction fuel with
  | zero => intro i; simp [findAllGo]
  | succ f ih =>
    intro i
    rw [findAllGo]
    by_cases hi : i ≤ d.length
    · rw [if_pos hi]
      cases hm : m d i with
      | some e =>
        refine List.Pairwise.cons ?_ (ih _)
        intro q hq
        exact (findAllGo_bounds m d f (max e (i + 1)) q hq).1
      | none => exact ih _
    · rw [if_neg hi]
      exact List.Pairwise.nil

theorem searchData_pairwise (m : List Nat → Nat → Option Nat) (path : String)
    (d : List Nat) :
    List.Pairwise
      (fun a b => a.offset < b.offset ∧ a.offset + a.data.length ≤ b.offset)
      (searchData m path d) := by
  unfold searchData findAllIndex
  rw [List.pairwise_map]
  refine (findAllGo_pairwise m d (d.length + 1) 0).imp ?_
  intro p q hpq
  simp only [goSlice, List.length_take, List.length_drop]
  omega

/-- C3: the matched slices returned by `searchFile` come in strictly
increasing offset order and no two of their `[offset, offset + len)` ranges
overlap. -/
theorem searchFile_ordered (fsys : FileSys) (path : String)
    (m : List Nat → Nat → Option Nat) (ms : List fileSlice)
    (h : searchFile fsys path m = .ok ms) :
    List.Pairwise
      (fun a b => a.offset < b.offset ∧ a.offset + a.data.length ≤ b.offset)
      ms := by
  unfold searchFile at h
  cases ho : fsys.openFile path with
  | error e => simp only [ho] at h; exact Except.noConfusion h
  | ok f =>
    simp only [ho] at h
    cases hr : f.readAll with
    | error e => simp only [hr] at h; exact Except.noConfusion h
    | ok content =>
      simp only [hr, Except.ok.injEq] at h
      rw [← h]
      exact searchData_pairwise m path (content.take maxFileSize)

/-- Witness for C3: the two matches of `matchOnes` in the bytes
`[1, 1, 1, 0]` are ordered and disjoint. -/
theorem searchFile_ordered_witness :
    List.Pairwise
      (fun a b => a.offset < b.offset ∧ a.offset + a.data.length ≤ b.offset)
      [(⟨"f", [1, 1], 0⟩ : fileSlice), ⟨"f", [1, 1], 2⟩] :=
  searchFile_ordered
    ⟨fun _ => .ok ⟨.ok [1, 1, 1, 1]⟩⟩ "f" matchOnes
    [⟨"f", [1, 1], 0⟩, ⟨"f", [1, 1], 2⟩] (by rfl)

/-- C10: every slice built from the loaded buffer has a nonnegative offset,
ends within the buffer, and its content is exactly the bytes of the buffer
at `[offset, offset + len)`. -/
theorem searchData_slice_invariant (m : List Nat → Nat → Option Nat)
    (path : String) (d : List Nat) :
    ∀ s ∈ searchData m path d,
      0 ≤ s.offset ∧
      s.offset + s.data.length ≤ d.length ∧
      s.data = goSlice d s.offset (s.offset + s.data.length) := by
  intro s hs
  unfold searchData findAllIndex at hs
  rw [List.mem_map] at hs
  obtain ⟨se, hse, rfl⟩ := hs
  have hb := findAllGo_bounds m d (d.length + 1) 0 se hse
  refine ⟨Nat.zero_le _, ?_, ?_⟩
  · simp only [goSlice, List.length_take, List.length_drop]
    omega
  · simp only [goSlice, List.length_take, List.length_drop]
    rw [List.take_eq_take]
    rw [List.length_drop]
    omega

/-- Witness for C10: the slice found in `[1, 1, 0]` is the buffer's bytes at
`[0, 2)`. -/
theorem searchData_slice_invariant_witness :
    0 ≤ (⟨"f", [1, 1], 0⟩ : fileSlice).offset ∧
    (⟨"f", [1, 1], 0⟩ : fileSlice).offset +
      (⟨"f", [1, 1], 0⟩ : fileSlice).data.length ≤ ([1, 1, 0] : List Nat).length ∧
    (⟨"f", [1, 1], 0⟩ : fileSlice).data =
      goSlice [1, 1, 0] (⟨"f", [1, 1], 0⟩ : fileSlice).offset
        ((⟨"f", [1, 1], 0⟩ : fileSlice).offset +
          (⟨"f", [1, 1], 0⟩ : fileSlice).data.length) :=
  searchData_slice_invariant matchOnes "f" [1, 1, 0] ⟨"f", [1, 1], 0⟩ (by decide)

/-- C4: truncating every file to its first `maxFileSize` bytes does not
change what `searchFile` returns — only the first `maxFileSize` bytes are
ever scanned — and every returned match lies entirely within that ceiling. -/
theorem searchFile_size_ceiling (fsys : FileSys) (path : String)
    (m : List Nat → Nat → Option Nat) :
    searchFile (truncFS fsys) path m = searchFile fsys path m ∧
    (∀ ms, searchFile fsys path m = .ok ms →
      ∀ s ∈ ms, s.offset + s.data.length ≤ maxFileSize) := by
  constructor
  · unfold searchFile truncFS
    cases ho : fsys.openFile path with
    | error e => simp [ho, Except.map]
    | ok f =>
      simp only [ho, Except.map]
      cases hr : f.readAll with
      | error e => simp [hr, Except.map]
      | ok content =>
        simp [hr, Except.map, List.take_take, min_self]
  · intro ms h s hs
    unfold searchFile at h
    cases ho : fsys.openFile path with
    | error e => simp only [ho] at h; exact Except.noConfusion h
    | ok f =>
      simp only [ho] at h
      cases hr : f.readAll with
      | error e => simp only [hr] at h; exact Except.noConfusion h
      | ok content =>
        simp only [hr, Except.ok.injEq] at h
        rw [← h] at hs
        have := (searchData_slice_invariant m path
          (content.take maxFileSize) s hs).2.1
        calc s.offset + s.data.length ≤ (content.take maxFileSize).length := this
          _ ≤ maxFileSize := by
            rw [List.length_take]; omega

/-- Witness for C4: on a three-byte file, searching the truncated filesystem
agrees with searching the original, and the one match ends below the
ceiling. -/
theorem searchFile_size_ceiling_witness :
    searchFile (truncFS fsOk) "f" matchOnes = searchFile fsOk "f" matchOnes ∧
    (⟨"f", [1, 1], 0⟩ : fileSlice).offset +
      (⟨"f", [1, 1], 0⟩ : fileSlice).data.length ≤ maxFileSize :=
  ⟨(searchFile_size_ceiling fsOk "f" matchOnes).1,
   (searchFile_size_ceiling fsOk "f" matchOnes).2
     [⟨"f", [1, 1], 0⟩] (by rfl) ⟨"f", [1, 1], 0⟩ (by decide)⟩

/-- C8: `searchFile` propagates an open failure and a mid-read failure as an
error (by the shape of `Except`, no slices accompany an error), and a
successful read always yields `ok` of the match list — in particular the
empty list, not an error, when nothing matches. -/
theorem searchFile_error_handling (fsys : FileSys) (path : String)
    (m : List Nat → Nat → Option Nat) :
    (∀ err, fsys.openFile path = .error err →
      searchFile fsys path m = .error err) ∧
    (∀ f err, fsys.openFile path = .ok f → f.readAll = .error err →
      searchFile fsys path m = .error err) ∧
    (∀ f content, fsys.openFile path = .ok f → f.readAll = .ok content →
      searchFile fsys path m =
        .ok (searchData m path (content.take maxFileSize))) ∧
    (∀ f content, fsys.openFile path = .ok f → f.readAll = .ok content →
      findAllIndex m (content.take maxFileSize) = [] →
      searchFile fsys path m = .ok []) := by
  refine ⟨?_, ?_, ?_, ?_⟩
  · intro err h
    unfold searchFile
    rw [h]
  · intro f err ho hr
    unfold searchFile
    simp only [ho, hr]
  · intro f content ho hr
    unfold searchFile
    simp only [ho, hr]
  · intro f content ho hr hloc
    unfold searchFile
    simp only [ho, hr]
    unfold searchData
    rw [hloc]
    rfl

/-- Witness for C8: concrete open failure, read failure, and zero-match
success. -/
theorem searchFile_error_handling_witness :
    searchFile fsOpenErr "f" matchOnes = .error "permission denied" ∧
    searchFile fsReadErr "f" matchOnes = .error "input output error" ∧
    searchFile ⟨fun _ => .ok ⟨.ok [0, 0]⟩⟩ "f" matchOnes = .ok [] :=
  ⟨(searchFile_error_handling fsOpenErr "f" matchOnes).1
      "permission denied" (by rfl),
   (searchFile_error_handling fsReadErr "f" matchOnes).2.1
      ⟨.error "input output error"⟩ "input output error" (by rfl) (by rfl),
   (searchFile_error_handling ⟨fun _ => .ok ⟨.ok [0, 0]⟩⟩ "f" matchOnes).2.2.2
      ⟨.ok [0, 0]⟩ [0, 0] (by rfl) (by rfl) (by decide)⟩

/-! ## Lemmas on `globEscape` -/

theorem globEscapeLoop_eq_flatMap (s : List Char) :
    globEscapeLoop s =
      s.flatMap fun c => if globMeta c then ['\\', c] else [c] := by
  induction s with
  | nil => rfl
  | cons c cs ih => simp [globEscapeLoop, List.flatMap_cons, ih]

theorem globEscapeLoop_of_no_meta (s : List Char)
    (h : s.any globMeta = false) : globEscapeLoop s = s := by
  induction s with
  | nil => rfl
  | cons c cs ih =>
    rw [List.any_cons, Bool.or_eq_false_iff] at h
    rw [globEscapeLoop, if_neg (by simp [h.1]), ih h.2]
    rfl

/-- C6: the fast path and the per-rune loop of `globEscape` agree on every
input; the loop prepends a backslash to exactly the metacharacters
`* ? \ [` and passes every other rune through whole; on input without
metacharacters the escaper is the identity. -/
theorem globEscape_correct (s : List Char) :
    globEscape s = globEscapeLoop s ∧
    globEscapeLoop s =
      (s.flatMap fun c => if globMeta c then ['\\', c] else [c]) ∧
    (s.any globMeta = false → globEscape s = s) := by
  refine ⟨?_, globEscapeLoop_eq_flatMap s, ?_⟩
  · by_cases h : s.any globMeta
    · simp [globEscape, h]
    · have hf : s.any globMeta = false := by simpa using h
      simp [globEscape, hf, globEscapeLoop_of_no_meta s hf]
  · intro h
    simp [globEscape, h]

/-- Witness for C6: a metacharacter-free string is returned unchanged. -/
theorem globEscape_correct_witness :
    globEscape "mypkg-1.0".toList = "mypkg-1.0".toList :=
  (globEscape_correct "mypkg-1.0".toList).2.2 (by decide)

/-! ## Lemmas on `searchEnv` -/

theorem searchEnvLoop_eq_find (find : List Char → List Char)
    (vs : List (List Char)) :
    searchEnvLoop find vs =
      ((vs.map find).find? fun v => !v.isEmpty).getD [] := by
  induction vs with
  | nil => rfl
  | cons v vs ih =>
    rw [searchEnvLoop, List.map_cons, List.find?_cons]
    cases he : (find v).isEmpty with
    | true => simp [he, ih]
    | false => simp [he]

theorem cutValue_eq (name val : List Char) (h : '=' ∉ name) :
    cutValue (name ++ '=' :: val) = val := by
  induction name with
  | nil => simp [cutValue, List.dropWhile]
  | cons c cs ih =>
    have hc : c ≠ '=' := fun hc => h (hc ▸ List.mem_cons_self c cs)
    have hcs : '=' ∉ cs := fun hm => h (List.mem_cons_of_mem c hm)
    rw [List.cons_append, cutValue, List.dropWhile_cons_of_pos (by simp [hc])]
    exact ih hcs

/-- C7: `searchEnv` equals the first non-empty match over the values obtained
by cutting each entry at its first `=` (names discarded), scanned in
environment order; if the pattern matches no value — for instance when it
only matches a variable name — the result is empty; and cutting
`NAME=VALUE` at the first `=` recovers `VALUE` whenever `NAME` itself
contains no `=`. -/
theorem searchEnv_spec (find : List Char → List Char)
    (env : List (List Char)) :
    searchEnv find env =
      (((env.map cutValue).map find).find? fun v => !v.isEmpty).getD [] ∧
    ((∀ e ∈ env, find (cutValue e) = []) → searchEnv find env = []) ∧
    (∀ name val, '=' ∉ name → cutValue (name ++ '=' :: val) = val) := by
  refine ⟨searchEnvLoop_eq_find find (envValues env), ?_,
    fun n v h => cutValue_eq n v h⟩
  intro h
  rw [searchEnv, searchEnvLoop_eq_find]
  have : ∀ v ∈ (envValues env).map find, v.isEmpty = true := by
    intro v hv
    rw [envValues, List.map_map, List.mem_map] at hv
    obtain ⟨e, he, rfl⟩ := hv
    simp [Function.comp, h e he]
  rw [List.find?_eq_none.2 (by intro v hv; simp [this v hv])]
  rfl

/-- Witness for C7: with the literal matcher for "FOO" and environment
`["FOO=bar"]`, the name matches but no value does, so nothing is found; the
cut of "FOO=bar" recovers "bar". -/
theorem searchEnv_spec_witness :
    searchEnv (findLiteral "FOO".toList) envEx = [] ∧
    cutValue ("FOO".toList ++ '=' :: "bar".toList) = "bar".toList :=
  ⟨(searchEnv_spec (findLiteral "FOO".toList) envEx).2.1 (by decide),
   (searchEnv_spec (findLiteral "FOO".toList) envEx).2.2
      "FOO".toList "bar".toList (by decide)⟩

/-! ## Lemmas on the removed-reference pattern -/

/-- C5 counterexample: `$` is neither a path separator, whitespace, a quote,
nor a brace/bracket, so the specification's alphabet admits it — but the
regex's negated class also excludes `$`, so the code does not match the
string of 32 `e`s, a hyphen, and `$`. -/
theorem reRemovedRefs_class_counterexample :
    specRemovedRefsFull (List.replicate 32 'e' ++ ['-', '$']) = true ∧
    reRemovedRefsFull (List.replicate 32 'e' ++ ['-', '$']) = false := by
  decide

/-- C5 amended: the language of `reRemovedRefs` is exactly 32 `e`s, a hyphen,
then one or more characters outside the regex's forbidden class (path
separator, whitespace, quotes, braces/brackets — and also the dollar sign);
the 32-`e` example with name "mypkg-1.0" matches, the 31-`e` variant does
not, and the anchored match of `eee…e-abc/def` stops at the first `/` (end
offset 36 = 32 + 1 + 3). -/
theorem reRemovedRefs_language (s : List Char) :
    (reRemovedRefsFull s = true ↔
      ∃ t, s = List.replicate 32 'e' ++ '-' :: t ∧ t ≠ [] ∧
        ∀ c ∈ t, forbiddenRefChar c = false) ∧
    reRemovedRefsFull
      (List.replicate 32 'e' ++ '-' :: "mypkg-1.0".toList) = true ∧
    reRemovedRefsFull
      (List.replicate 31 'e' ++ '-' :: "mypkg-1.0".toList) = false ∧
    reRemovedRefsMatch (List.replicate 32 'e' ++ '-' :: "abc/def".toList) 0 =
      some 36 := by
  refine ⟨?_, by decide, by decide, by decide⟩
  constructor
  · intro h
    rw [reRemovedRefsFull, decide_eq_true_eq, reRemovedRefsMatch] at h
    simp only [List.drop_zero, Nat.zero_add] at h
    split_ifs at h with h1 h2 h3
    · rw [Option.some.injEq] at h
      refine ⟨s.drop 33, ?_, ?_, ?_⟩
      · have h32 : 32 ≤ s.length := by
          have := congrArg List.length h1
          simp only [List.length_take, List.length_replicate] at this
          omega
        calc s = s.take 32 ++ s.drop 32 := (List.take_append_drop 32 s).symm
          _ = List.replicate 32 'e' ++ s.drop 32 := by rw [h1]
          _ = List.replicate 32 'e' ++
              ((s.drop 32).take 1 ++ (s.drop 32).drop 1) := by
            rw [List.take_append_drop]
          _ = List.replicate 32 'e' ++ (['-'] ++ (s.drop 32).drop 1) := by
            rw [h2]
          _ = List.replicate 32 'e' ++ '-' :: s.drop 33 := by
            rw [List.drop_drop]
            norm_num
      · have hle : ((s.drop 33).takeWhile
            fun c => !forbiddenRefChar c).length ≤ (s.drop 33).length :=
          (List.takeWhile_prefix _).length_le
        intro hnil
        have hz : (s.drop 33).length = 0 := by rw [hnil]; rfl
        omega
      · have hle : ((s.drop 33).takeWhile
            fun c => !forbiddenRefChar c).length ≤ (s.drop 33).length :=
          (List.takeWhile_prefix _).length_le
        have hdl : (s.drop 33).length = s.length - 33 := List.length_drop 33 s
        have heq : (s.drop 33).takeWhile (fun c => !forbiddenRefChar c) =
            s.drop 33 :=
          (List.takeWhile_prefix _).eq_of_length (by omega)
        intro c hc
        have := List.takeWhile_eq_self_iff.1 heq c hc
        simpa using this
  · rintro ⟨t, rfl, ht, hall⟩
    rw [reRemovedRefsFull, decide_eq_true_eq, reRemovedRefsMatch]
    simp only [List.drop_zero, Nat.zero_add]
    have h32 : (List.replicate 32 'e').length = 32 := List.length_replicate _ _
    have htake : (List.replicate 32 'e' ++ '-' :: t).take 32 =
        List.replicate 32 'e' := List.take_left' h32
    have hdrop : (List.replicate 32 'e' ++ '-' :: t).drop 32 = '-' :: t :=
      List.drop_left' h32
    have hdrop33 : (List.replicate 32 'e' ++ '-' :: t).drop 33 = t := by
      have : (33 : Nat) = 32 + 1 := by norm_num
      rw [this, ← List.drop_drop, hdrop]
      rfl
    rw [if_pos htake, hdrop, hdrop33]
    have htw : t.takeWhile (fun c => !forbiddenRefChar c) = t :=
      List.takeWhile_eq_self_iff.2 fun c hc => by simp [hall c hc]
    rw [htw, if_pos (by simp), if_neg (by simpa [List.length_pos] using ht)]
    simp only [Option.some.injEq, List.length_append, List.length_cons, h32]
    omega

/-- Witness for C5 (amended): the language characterization applied to the
concrete matching string with name "mypkg-1.0". -/
theorem reRemovedRefs_language_witness :
    ∃ t, List.replicate 32 'e' ++ '-' :: "mypkg-1.0".toList =
        List.replicate 32 'e' ++ '-' :: t ∧ t ≠ [] ∧
        ∀ c ∈ t, forbiddenRefChar c = false :=
  (reRemovedRefs_language
      (List.replicate 32 'e' ++ '-' :: "mypkg-1.0".toList)).1.1 (by decide)

end PatchPkg
